import Mathlib

/-!
Verification of the gexify-lightning graph pipeline.

The source program parses a Lightning Network JSON document into an
undirected attributed graph, optionally removes isolated nodes, optionally
keeps only the largest connected component, and writes the result.

We shallowly embed the data model and the operations of src/main.py,
together with the semantics of the networkx library calls it makes
(Graph.add_node, Graph.add_edge, isolates, remove_nodes_from,
is_connected, connected_component_subgraphs, and the builtin max with
key=len).  JSON scalar values are modelled by the inductive JVal; the
Python int() coercion is modelled by toInt, which fails on null and on
non-numeric strings.  Errors raised by the Python code are modelled with
Except.
-/

namespace Gexify

/-- A JSON scalar value as it occurs in the input document:
null, a string, or an integer number. -/
inductive JVal where
  | jnull : JVal
  | jstr : String → JVal
  | jint : Int → JVal
  deriving DecidableEq, Repr

/-- Accumulating decimal-digit parser over the characters of a string;
any non-digit character rejects the whole string. -/
def parseDigits : List Char → Nat → Option Nat
  | [], acc => some acc
  | c :: cs, acc => if c.isDigit then parseDigits cs (acc * 10 + (c.toNat - 48)) else none

/-- The integer denoted by a string, when the string is an optionally
negated nonempty run of decimal digits; none otherwise. -/
def strToInt? (s : String) : Option Int :=
  match s.data with
  | [] => none
  | '-' :: cs => if cs.isEmpty then none else (parseDigits cs 0).map (fun n => -(n : Int))
  | cs => (parseDigits cs 0).map (fun n => (n : Int))

/-- The Python int() coercion applied by the edge-parsing code:
an integer stays itself, a string must spell an integer, anything
else (in particular null) raises. -/
def toInt : JVal → Except Unit Int
  | JVal.jint n => Except.ok n
  | JVal.jstr s =>
      match strToInt? s with
      | some n => Except.ok n
      | none => Except.error ()
  | JVal.jnull => Except.error ()

/-- A node record of the input document: a pub_key identity and a
last_update value.  The source stores last_update verbatim, so we keep
it as a raw JVal. -/
structure NodeRec where
  pub_key : String
  last_update : JVal
  deriving DecidableEq, Repr

/-- A directional policy object of an edge record, with its four
numeric sub-fields kept raw (they are coerced with int() at use). -/
structure PolicyRec where
  time_lock_delta : JVal
  min_htlc : JVal
  fee_base_msat : JVal
  fee_rate_milli_msat : JVal
  deriving DecidableEq, Repr

/-- An edge record of the input document.  The two policy objects are
optional: none models the JSON null. -/
structure EdgeRec where
  node1_pub : String
  node2_pub : String
  capacity : JVal
  last_update : JVal
  channel_id : JVal
  chan_point : JVal
  node1_policy : Option PolicyRec
  node2_policy : Option PolicyRec
  deriving DecidableEq, Repr

/-- The whole input document: the nodes collection and the edges
collection. -/
structure JsonGraph where
  nodes : List NodeRec
  edges : List EdgeRec
  deriving DecidableEq, Repr

/-- The attribute dictionary attached to a graph edge by add_edge in
parse_graph_from_json, after all int() coercions succeeded. -/
structure EdgeAttr where
  capacity : Int
  last_update : Int
  channel_id : JVal
  chan_point : JVal
  node1_timelock_delta : Int
  node1_min_htlc : Int
  node1_fee_base_msat : Int
  node1_fee_rate_milli_msat : Int
  node2_timelock_delta : Int
  node2_min_htlc : Int
  node2_fee_base_msat : Int
  node2_fee_rate_milli_msat : Int
  deriving DecidableEq, Repr

/-- The networkx undirected graph, observationally: the list of nodes in
insertion order, each with its optional last_update attribute (none for
a bare node auto-created by add_edge), and the list of edges in
insertion order, each an endpoint pair with its attribute dictionary.
Identities are unique among nodes and unordered endpoint pairs are
unique among edges for every graph the program builds. -/
structure Graph where
  nodes : List (String × Option JVal)
  edges : List (String × String × EdgeAttr)
  deriving DecidableEq, Repr

/-- The empty networkx graph, nx.Graph(). -/
def Graph.empty : Graph := ⟨[], []⟩

/-- The node identities of a graph, in insertion order. -/
def nodeKeys (g : Graph) : List String := g.nodes.map Prod.fst

/-- Whether two ordered pairs name the same unordered endpoint pair. -/
def samePair (a b : String × String) : Bool :=
  (a.1 == b.1 && a.2 == b.2) || (a.1 == b.2 && a.2 == b.1)

/-- networkx Graph.add_node with a last_update attribute: an existing
node has its attribute overwritten in place, a new node is appended. -/
def addNode (g : Graph) (key : String) (lu : JVal) : Graph :=
  if g.nodes.any (fun p => p.1 == key) then
    { g with nodes := g.nodes.map (fun p => if p.1 == key then (key, some lu) else p) }
  else
    { g with nodes := g.nodes ++ [(key, some lu)] }

/-- The implicit node creation performed by networkx Graph.add_edge: a
missing endpoint is appended as a bare node with no attributes; an
existing endpoint is left untouched. -/
def ensureNode (g : Graph) (key : String) : Graph :=
  if g.nodes.any (fun p => p.1 == key) then g
  else { g with nodes := g.nodes ++ [(key, none)] }

/-- networkx Graph.add_edge: both endpoints are ensured to exist, then
the edge attribute for the unordered pair is overwritten if the pair is
already connected, or the edge is appended. -/
def addEdge (g : Graph) (u v : String) (a : EdgeAttr) : Graph :=
  let g1 := ensureNode (ensureNode g u) v
  if g1.edges.any (fun e => samePair (e.1, e.2.1) (u, v)) then
    { g1 with edges := g1.edges.map (fun e => if samePair (e.1, e.2.1) (u, v) then (e.1, e.2.1, a) else e) }
  else
    { g1 with edges := g1.edges ++ [(u, v, a)] }

/-- The twelve int() coercions performed for one edge record whose two
policy objects are present, in the order the source applies them. -/
def parseEdgeAttr (e : EdgeRec) (p1 p2 : PolicyRec) : Except Unit EdgeAttr := do
  let cap ← toInt e.capacity
  let lu ← toInt e.last_update
  let t1 ← toInt p1.time_lock_delta
  let m1 ← toInt p1.min_htlc
  let b1 ← toInt p1.fee_base_msat
  let r1 ← toInt p1.fee_rate_milli_msat
  let t2 ← toInt p2.time_lock_delta
  let m2 ← toInt p2.min_htlc
  let b2 ← toInt p2.fee_base_msat
  let r2 ← toInt p2.fee_rate_milli_msat
  Except.ok
    { capacity := cap
      last_update := lu
      channel_id := e.channel_id
      chan_point := e.chan_point
      node1_timelock_delta := t1
      node1_min_htlc := m1
      node1_fee_base_msat := b1
      node1_fee_rate_milli_msat := r1
      node2_timelock_delta := t2
      node2_min_htlc := m2
      node2_fee_base_msat := b2
      node2_fee_rate_milli_msat := r2 }

/-- Processing of one edge record by the loop in parse_graph_from_json:
a record missing either policy object is skipped silently; otherwise the
numeric fields are coerced (raising on failure) and the edge is added. -/
def addEdgeRec (g : Graph) (e : EdgeRec) : Except Unit Graph :=
  match e.node1_policy, e.node2_policy with
  | some p1, some p2 =>
      match parseEdgeAttr e p1 p2 with
      | Except.ok a => Except.ok (addEdge g e.node1_pub e.node2_pub a)
      | Except.error x => Except.error x
  | _, _ => Except.ok g

/-- The node-insertion phase of parse_graph_from_json: every node record
is added, in input order, with its last_update stored verbatim. -/
def buildNodes (ns : List NodeRec) : Graph :=
  ns.foldl (fun g n => addNode g n.pub_key n.last_update) Graph.empty

/-- parse_graph_from_json: insert every node record, then process every
edge record in order; any failed int() coercion aborts with an error. -/
def parse_graph_from_json (j : JsonGraph) : Except Unit Graph :=
  j.edges.foldlM addEdgeRec (buildNodes j.nodes)

/-- Whether the edge is incident to the node x (a self-loop on x is
incident to x). -/
def incidentB (e : String × String × EdgeAttr) (x : String) : Bool :=
  e.1 == x || e.2.1 == x

/-- Whether the node x has at least one incident edge in g, i.e. has
nonzero degree. -/
def hasEdgeB (g : Graph) (x : String) : Bool :=
  g.edges.any (fun e => incidentB e x)

/-- clean_isolated_nodes: remove every node of degree zero.  Removing an
isolated node removes no edge, so the edge list is unchanged and the
node list is filtered against the original edge set, exactly as the
source first materialises list(nx.isolates(graph)). -/
def clean_isolated_nodes (g : Graph) : Graph :=
  { g with nodes := g.nodes.filter (fun p => hasEdgeB g p.1) }

/-- Whether the nodes x and y are adjacent in g, either orientation of
a stored edge counting. -/
def adjacentB (g : Graph) (x y : String) : Bool :=
  g.edges.any (fun e => (e.1 == x && e.2.1 == y) || (e.1 == y && e.2.1 == x))

/-- One breadth-first expansion step of a reached set: every graph node
not yet reached but adjacent to a reached node is appended. -/
def reachStep (g : Graph) (s : List String) : List String :=
  s ++ (nodeKeys g).filter (fun y => !s.contains y && s.any (fun x => adjacentB g x y))

/-- Iterated breadth-first expansion with explicit fuel. -/
def reachAux (g : Graph) : Nat → List String → List String
  | 0, s => s
  | n + 1, s => reachAux g n (reachStep g s)

/-- The breadth-first search of networkx _plain_bfs: all nodes reachable
from x, starting from the singleton and expanding as many times as the
graph has nodes. -/
def reachFrom (g : Graph) (x : String) : List String :=
  reachAux g (nodeKeys g).length [x]

/-- Errors raised by the networkx calls in fix_connectivity:
is_connected raises NetworkXPointlessConcept on the null graph, and the
builtin max raises ValueError on an empty sequence. -/
inductive NxErr where
  | pointlessConcept : NxErr
  | valueErrorEmptySeq : NxErr
  deriving DecidableEq, Repr

/-- networkx is_connected: raises on the null graph, otherwise reports
whether the breadth-first search from the first node covers every
node. -/
def is_connected (g : Graph) : Except NxErr Bool :=
  match nodeKeys g with
  | [] => Except.error NxErr.pointlessConcept
  | x :: _ => Except.ok ((nodeKeys g).all (fun y => (reachFrom g x).contains y))

/-- The subgraph of g induced by the node set s: the nodes of g that lie
in s with their attributes, and the edges of g with both endpoints in s,
orders preserved, exactly networkx G.subgraph(s). -/
def inducedSubgraph (g : Graph) (s : List String) : Graph :=
  { nodes := g.nodes.filter (fun p => s.contains p.1)
    edges := g.edges.filter (fun e => s.contains e.1 && s.contains e.2.1) }

/-- The enumeration of connected components performed by networkx
connected_components: scan the nodes in insertion order, and for each
node not yet seen emit its breadth-first reach set and mark it seen. -/
def componentsAux (g : Graph) : List String → List String → List (List String)
  | [], _ => []
  | x :: rest, seen =>
      if seen.contains x then componentsAux g rest seen
      else reachFrom g x :: componentsAux g rest (seen ++ reachFrom g x)

/-- The connected components of g as node lists, in discovery order. -/
def connected_components (g : Graph) : List (List String) :=
  componentsAux g (nodeKeys g) []

/-- networkx connected_component_subgraphs: the induced subgraph of each
connected component, in discovery order. -/
def connected_component_subgraphs (g : Graph) : List Graph :=
  (connected_components g).map (inducedSubgraph g)

/-- The Python builtin max with key=len over a sequence of graphs: the
first graph of maximal node count (a later graph replaces the current
maximum only when strictly larger); raises ValueError when the sequence
is empty. -/
def maxByLen : List Graph → Except NxErr Graph
  | [] => Except.error NxErr.valueErrorEmptySeq
  | g :: rest =>
      Except.ok (rest.foldl (fun best h => if best.nodes.length < h.nodes.length then h else best) g)

/-- fix_connectivity: test connectivity (which may raise), and when the
graph is not connected return the largest connected component subgraph;
when it is connected the Python function falls off the end and returns
None. -/
def fix_connectivity (g : Graph) : Except NxErr (Option Graph) := do
  let connected ← is_connected g
  if connected = false then
    let m ← maxByLen (connected_component_subgraphs g)
    return some m
  else
    return none

/-- The two optional reduction flags of the command line. -/
structure Args where
  isolated : Bool
  connected : Bool
  deriving DecidableEq, Repr

/-- Errors that abort the pipeline: a parse error from an int()
coercion, a networkx error from fix_connectivity, or the crash of
nx.write_gexf when fix_connectivity returned None on a connected
graph. -/
inductive PipeErr where
  | malformed : PipeErr
  | nx : NxErr → PipeErr
  | writeNone : PipeErr
  deriving DecidableEq, Repr

/-- The pipeline of main after argument parsing: parse the document,
optionally remove isolated nodes, optionally restrict to the largest
component, and hand the resulting graph to nx.write_gexf.  An error
value means the program raised before writing any output; an ok value
is the graph that gets written. -/
def runPipeline (args : Args) (j : JsonGraph) : Except PipeErr Graph := do
  let g ←
    match parse_graph_from_json j with
    | Except.ok g => Except.ok g
    | Except.error _ => Except.error PipeErr.malformed
  let g := if args.isolated then clean_isolated_nodes g else g
  if args.connected then
    match fix_connectivity g with
    | Except.ok (some h) => Except.ok h
    | Except.ok none => Except.error PipeErr.writeNone
    | Except.error e => Except.error (PipeErr.nx e)
  else
    Except.ok g

/-! ## Specification-side notions

Graph-theoretic adjacency, reachability, connectivity and the subgraph
relation, stated independently of the breadth-first search code, so that
the component-extraction theorems compare the program against the
mathematical notion of connected component. -/

/-- The nodes x and y are joined by an edge of g (in either stored
orientation). -/
def Adj (g : Graph) (x y : String) : Prop :=
  ∃ e ∈ g.edges, (e.1 = x ∧ e.2.1 = y) ∨ (e.1 = y ∧ e.2.1 = x)

/-- Graph-theoretic reachability: the reflexive transitive closure of
adjacency. -/
def Reach (g : Graph) : String → String → Prop :=
  Relation.ReflTransGen (Adj g)

/-- Well-formedness of a graph value: node identities are unique and
every edge endpoint is a node.  Every graph the program builds satisfies
this. -/
def Graph.Wf (g : Graph) : Prop :=
  (nodeKeys g).Nodup ∧ ∀ e ∈ g.edges, e.1 ∈ nodeKeys g ∧ e.2.1 ∈ nodeKeys g

/-- The graph is nonempty and every two of its nodes are joined by a
path. -/
def ConnectedG (g : Graph) : Prop :=
  g.nodes ≠ [] ∧ ∀ x ∈ nodeKeys g, ∀ y ∈ nodeKeys g, Reach g x y

/-- Every node entry and every edge entry of h occurs in g. -/
def SubgraphOf (h g : Graph) : Prop :=
  (∀ p ∈ h.nodes, p ∈ g.nodes) ∧ ∀ e ∈ h.edges, e ∈ g.edges

/-- The node attribute dictionary stored for the identity k: none when
the node is absent, some none for a bare node, some (some v) for a node
with last_update v. -/
def lookupNode (g : Graph) (k : String) : Option (Option JVal) :=
  (g.nodes.find? (fun p => p.1 == k)).map Prod.snd

/-- The last node record of the input with the identity k, the one whose
attribute last-write-wins insertion keeps. -/
def lastNodeRec (ns : List NodeRec) (k : String) : Option NodeRec :=
  ns.reverse.find? (fun n => n.pub_key == k)

/-- Some field of the edge record that the source coerces with int()
(capacity, last_update, or one of the four numeric sub-fields of either
policy object) fails the coercion. -/
def failsToInt (e : EdgeRec) (p1 p2 : PolicyRec) : Prop :=
  toInt e.capacity = Except.error () ∨
  toInt e.last_update = Except.error () ∨
  toInt p1.time_lock_delta = Except.error () ∨
  toInt p1.min_htlc = Except.error () ∨
  toInt p1.fee_base_msat = Except.error () ∨
  toInt p1.fee_rate_milli_msat = Except.error () ∨
  toInt p2.time_lock_delta = Except.error () ∨
  toInt p2.min_htlc = Except.error () ∨
  toInt p2.fee_base_msat = Except.error () ∨
  toInt p2.fee_rate_milli_msat = Except.error ()

/-! ## Concrete example inputs used by the scenario theorems -/

/-- A policy object all four of whose numeric sub-fields are the
integer n. -/
def exPolicy (n : Int) : PolicyRec :=
  ⟨JVal.jint n, JVal.jint n, JVal.jint n, JVal.jint n⟩

/-- A well-formed edge record between u and v with both policy objects
present. -/
def exEdge (u v : String) : EdgeRec :=
  ⟨u, v, JVal.jint 5, JVal.jint 7, JVal.jstr "cid", JVal.jstr "cp",
    some (exPolicy 1), some (exPolicy 2)⟩

/-- The attribute dictionary the parser builds for exEdge. -/
def exAttr : EdgeAttr :=
  ⟨5, 7, JVal.jstr "cid", JVal.jstr "cp", 1, 1, 1, 1, 2, 2, 2, 2⟩

/-- An edge record between u and v whose node1_policy is null. -/
def exEdgeNull (u v : String) : EdgeRec :=
  ⟨u, v, JVal.jint 5, JVal.jint 7, JVal.jstr "cid", JVal.jstr "cp",
    none, some (exPolicy 2)⟩

/-- A two-node one-edge (hence connected) input document. -/
def jTwoConn : JsonGraph :=
  ⟨[⟨"a", JVal.jint 1⟩, ⟨"b", JVal.jint 2⟩], [exEdge "a" "b"]⟩

/-- The graph built from jTwoConn. -/
def gConn : Graph :=
  ⟨[("a", some (JVal.jint 1)), ("b", some (JVal.jint 2))], [("a", "b", exAttr)]⟩

/-- The graph with a single node and no edges. -/
def gSingle : Graph := ⟨[("a", some (JVal.jint 1))], []⟩

/-- A six-node input document made of two disjoint triangles. -/
def jTriangles : JsonGraph :=
  ⟨[⟨"a", JVal.jint 1⟩, ⟨"b", JVal.jint 1⟩, ⟨"c", JVal.jint 1⟩,
    ⟨"d", JVal.jint 1⟩, ⟨"e", JVal.jint 1⟩, ⟨"f", JVal.jint 1⟩],
   [exEdge "a" "b", exEdge "b" "c", exEdge "c" "a",
    exEdge "d" "e", exEdge "e" "f", exEdge "f" "d"]⟩

/-- The graph built from jTriangles. -/
def gTriangles : Graph :=
  ⟨[("a", some (JVal.jint 1)), ("b", some (JVal.jint 1)), ("c", some (JVal.jint 1)),
    ("d", some (JVal.jint 1)), ("e", some (JVal.jint 1)), ("f", some (JVal.jint 1))],
   [("a", "b", exAttr), ("b", "c", exAttr), ("c", "a", exAttr),
    ("d", "e", exAttr), ("e", "f", exAttr), ("f", "d", exAttr)]⟩

/-- Nine well-formed edge records on distinct pairs together with one
record whose node1_policy is null. -/
def jNinePlusNull : JsonGraph :=
  ⟨[],
   [exEdge "v0" "v1", exEdge "v1" "v2", exEdge "v2" "v3",
    exEdgeNull "v0" "v9",
    exEdge "v3" "v4", exEdge "v4" "v5", exEdge "v5" "v6",
    exEdge "v6" "v7", exEdge "v7" "v8", exEdge "v8" "v9"]⟩

/-- An input document whose single edge record has both policies present
but a non-numeric capacity. -/
def jBadCapacity : JsonGraph :=
  ⟨[⟨"a", JVal.jint 1⟩],
   [{ exEdge "a" "b" with capacity := JVal.jstr "notanumber" }]⟩

/-- Node records with a duplicated identity. -/
def nsDup : List NodeRec :=
  [⟨"a", JVal.jint 1⟩, ⟨"b", JVal.jint 2⟩, ⟨"a", JVal.jint 3⟩]

/-- The graph with the single attributed node a. -/
def gOneNode : Graph := ⟨[("a", some (JVal.jint 1))], []⟩

/-! ## Basic lemmas about the graph operations -/

lemma ensureNode_edges (g : Graph) (k : String) : (ensureNode g k).edges = g.edges := by
  unfold ensureNode
  split <;> rfl

lemma addEdge_nodes (g : Graph) (u v : String) (a : EdgeAttr) :
    (addEdge g u v a).nodes = (ensureNode (ensureNode g u) v).nodes := by
  simp only [addEdge]
  split <;> rfl

lemma mem_nodeKeys_iff (g : Graph) (k : String) :
    k ∈ nodeKeys g ↔ ∃ p ∈ g.nodes, p.1 = k := by
  simp [nodeKeys, List.mem_map]

lemma nodeKeys_addEdge (g : Graph) (u v : String) (a : EdgeAttr) :
    nodeKeys (addEdge g u v a) = nodeKeys (ensureNode (ensureNode g u) v) := by
  unfold nodeKeys
  rw [addEdge_nodes]

lemma mem_nodeKeys_ensureNode_self (g : Graph) (k : String) :
    k ∈ nodeKeys (ensureNode g k) := by
  unfold ensureNode
  split
  · rename_i h
    simp only [List.any_eq_true, beq_iff_eq] at h
    obtain ⟨p, hp, hk⟩ := h
    exact (mem_nodeKeys_iff g k).mpr ⟨p, hp, hk⟩
  · simp [nodeKeys]

lemma mem_nodeKeys_ensureNode_mono (g : Graph) (k x : String) (h : x ∈ nodeKeys g) :
    x ∈ nodeKeys (ensureNode g k) := by
  unfold ensureNode
  split
  · exact h
  · simp only [nodeKeys, List.map_append]
    exact List.mem_append_left _ h

lemma samePair_self (x y u : String) (h : samePair (x, y) (u, u) = true) : x = u ∧ y = u := by
  simp only [samePair, Bool.or_eq_true, Bool.and_eq_true, beq_iff_eq] at h
  rcases h with ⟨h1, h2⟩ | ⟨h1, h2⟩ <;> exact ⟨h1, h2⟩

lemma addEdge_mem_edges (g : Graph) (u v : String) (a : EdgeAttr) :
    ∃ x y, samePair (x, y) (u, v) = true ∧ (x, y, a) ∈ (addEdge g u v a).edges := by
  simp only [addEdge]
  split
  · rename_i h
    simp only [List.any_eq_true] at h
    obtain ⟨e, he, hsp⟩ := h
    refine ⟨e.1, e.2.1, hsp, ?_⟩
    simp only [List.mem_map]
    exact ⟨e, he, by simp [hsp]⟩
  · refine ⟨u, v, by simp [samePair], ?_⟩
    simp

lemma addEdge_edges_append (g : Graph) (u v : String) (a : EdgeAttr)
    (h : g.edges.any (fun e => samePair (e.1, e.2.1) (u, v)) = false) :
    (addEdge g u v a).edges = g.edges ++ [(u, v, a)] := by
  simp only [addEdge, ensureNode_edges]
  rw [if_neg]
  simp [h]

lemma hasEdgeB_of_mem (g : Graph) (e : String × String × EdgeAttr) (x : String)
    (he : e ∈ g.edges) (hx : incidentB e x = true) : hasEdgeB g x = true :=
  List.any_eq_true.mpr ⟨e, he, hx⟩

lemma mem_clean_of_hasEdge (g : Graph) (x : String)
    (hx : x ∈ nodeKeys g) (he : hasEdgeB g x = true) :
    x ∈ nodeKeys (clean_isolated_nodes g) := by
  obtain ⟨p, hp, hpk⟩ := (mem_nodeKeys_iff g x).mp hx
  apply (mem_nodeKeys_iff _ x).mpr
  refine ⟨p, ?_, hpk⟩
  exact List.mem_filter.mpr ⟨hp, by rw [hpk]; exact he⟩

/-- C6: removeIsolated is idempotent: applying clean_isolated_nodes twice
yields the same graph (same node and edge lists) as applying it once. -/
theorem removeIsolated_idempotent (g : Graph) :
    clean_isolated_nodes (clean_isolated_nodes g) = clean_isolated_nodes g := by
  simp [clean_isolated_nodes, hasEdgeB, List.filter_filter]

/-- C1 evidence: on the connected two-node graph built from jTwoConn,
is_connected reports true but fix_connectivity returns None (the Python
function falls off the end), so the pipeline with the connectivity flag
crashes at nx.write_gexf instead of writing the graph back unchanged. -/
theorem largestComponent_connected_returns_none :
    parse_graph_from_json jTwoConn = Except.ok gConn ∧
    is_connected gConn = Except.ok true ∧
    fix_connectivity gConn = Except.ok none ∧
    runPipeline ⟨false, true⟩ jTwoConn = Except.error PipeErr.writeNone :=
  ⟨rfl, rfl, rfl, rfl⟩

/-- C2 counterexample: on the empty graph, fix_connectivity raises the
NetworkXPointlessConcept error of nx.is_connected instead of returning
an empty graph, and the pipeline with the connectivity flag on the
empty document aborts with that error. -/
theorem largestComponent_empty_raises :
    fix_connectivity Graph.empty = Except.error NxErr.pointlessConcept ∧
    runPipeline ⟨false, true⟩ ⟨[], []⟩ = Except.error (PipeErr.nx NxErr.pointlessConcept) :=
  ⟨rfl, rfl⟩

/-- C2 amended: parsing the empty document yields the empty graph with
no error, and the pipeline without the largest-component flag outputs a
zero-node zero-edge graph (with or without isolated-node removal), but
largestComponent itself raises on the empty graph. -/
theorem empty_input_behavior :
    parse_graph_from_json ⟨[], []⟩ = Except.ok Graph.empty ∧
    runPipeline ⟨false, false⟩ ⟨[], []⟩ = Except.ok Graph.empty ∧
    runPipeline ⟨true, false⟩ ⟨[], []⟩ = Except.ok Graph.empty ∧
    fix_connectivity Graph.empty = Except.error NxErr.pointlessConcept :=
  ⟨rfl, rfl, rfl, rfl⟩

/-- C3 counterexample: on the connected single-node graph,
fix_connectivity returns None rather than any subgraph, so the claim
quantified over every graph fails. -/
theorem largestComponent_single_node_none :
    fix_connectivity gSingle = Except.ok none := rfl

/-- C10: an edge record whose two endpoint identities coincide and whose
two policies are present is inserted as a self-loop; the node then has
an incident edge, so clean_isolated_nodes keeps it. -/
theorem self_loop_inserted_and_kept (g : Graph) (e : EdgeRec) (p1 p2 : PolicyRec) (a : EdgeAttr)
    (h1 : e.node1_policy = some p1) (h2 : e.node2_policy = some p2)
    (ha : parseEdgeAttr e p1 p2 = Except.ok a)
    (hself : e.node2_pub = e.node1_pub) :
    ∃ g', addEdgeRec g e = Except.ok g' ∧
      (e.node1_pub, e.node1_pub, a) ∈ g'.edges ∧
      hasEdgeB g' e.node1_pub = true ∧
      e.node1_pub ∈ nodeKeys (clean_isolated_nodes g') := by
  set u := e.node1_pub with hu
  refine ⟨addEdge g u u a, ?_, ?_⟩
  · simp only [addEdgeRec, h1, h2, ha]
    rw [hself]
  · obtain ⟨x, y, hsp, hmem⟩ := addEdge_mem_edges g u u a
    obtain ⟨hx, hy⟩ := samePair_self x y u hsp
    subst hx; subst hy
    refine ⟨hmem, ?_⟩
    have hedge : hasEdgeB (addEdge g u u a) u = true :=
      hasEdgeB_of_mem _ _ _ hmem (by simp [incidentB])
    refine ⟨hedge, ?_⟩
    apply mem_clean_of_hasEdge _ _ _ hedge
    rw [nodeKeys_addEdge]
    exact mem_nodeKeys_ensureNode_mono _ _ _ (mem_nodeKeys_ensureNode_self _ _)

/-- C10 witness: a concrete self-loop record on the empty graph is
inserted and its node survives isolated-node removal. -/
theorem self_loop_inserted_and_kept_w :
    ∃ g', addEdgeRec Graph.empty (exEdge "x" "x") = Except.ok g' ∧
      ((exEdge "x" "x").node1_pub, (exEdge "x" "x").node1_pub, exAttr) ∈ g'.edges ∧
      hasEdgeB g' (exEdge "x" "x").node1_pub = true ∧
      (exEdge "x" "x").node1_pub ∈ nodeKeys (clean_isolated_nodes g') :=
  self_loop_inserted_and_kept Graph.empty (exEdge "x" "x") (exPolicy 1) (exPolicy 2) exAttr
    rfl rfl rfl rfl

lemma addEdgeRec_skip (g : Graph) (e : EdgeRec)
    (h : e.node1_policy = none ∨ e.node2_policy = none) : addEdgeRec g e = Except.ok g := by
  rcases h with h | h
  · cases h2 : e.node2_policy <;> simp [addEdgeRec, h, h2]
  · cases h1 : e.node1_policy <;> simp [addEdgeRec, h, h1]

lemma foldlM_filter_policies (es : List EdgeRec) : ∀ g : Graph,
    es.foldlM addEdgeRec g
      = (es.filter (fun e => e.node1_policy.isSome && e.node2_policy.isSome)).foldlM addEdgeRec g := by
  induction es with
  | nil => intro g; rfl
  | cons e es ih =>
    intro g
    by_cases hp : (e.node1_policy.isSome && e.node2_policy.isSome) = true
    · simp only [List.filter_cons, hp, if_true, List.foldlM_cons]
      cases h : addEdgeRec g e with
      | error u => rfl
      | ok g' => exact ih g'
    · have h' : e.node1_policy = none ∨ e.node2_policy = none := by
        rcases hn1 : e.node1_policy with _ | p1
        · exact Or.inl rfl
        rcases hn2 : e.node2_policy with _ | p2
        · exact Or.inr rfl
        exact absurd (by simp [hn1, hn2]) hp
      simp only [List.filter_cons, hp, if_false, List.foldlM_cons, addEdgeRec_skip g e h']
      simpa using ih g

/-- C4: an edge record missing either policy object is skipped without
an error and leaves the graph unchanged, however many such records there
are (processing the edge list equals processing only its policy-complete
records); concretely, nine well-formed edges alongside one null-policy
record parse into a graph with exactly nine edges. -/
theorem missing_policy_skipped :
    (∀ (g : Graph) (e : EdgeRec), e.node1_policy = none ∨ e.node2_policy = none →
        addEdgeRec g e = Except.ok g) ∧
    (∀ (g : Graph) (es : List EdgeRec),
        es.foldlM addEdgeRec g
          = (es.filter (fun e => e.node1_policy.isSome && e.node2_policy.isSome)).foldlM addEdgeRec g) ∧
    ∃ gN : Graph, parse_graph_from_json jNinePlusNull = Except.ok gN ∧ gN.edges.length = 9 := by
  refine ⟨addEdgeRec_skip, fun g es => foldlM_filter_policies es g, ⟨_, rfl, rfl⟩⟩

/-- C4 witness: a concrete null-policy record is skipped, leaving the
empty graph unchanged with no error. -/
theorem missing_policy_skipped_w :
    addEdgeRec Graph.empty (exEdgeNull "x" "y") = Except.ok Graph.empty :=
  missing_policy_skipped.1 Graph.empty (exEdgeNull "x" "y") (Or.inl rfl)

lemma parseEdgeAttr_ok_all (e : EdgeRec) (p1 p2 : PolicyRec) (a : EdgeAttr)
    (h : parseEdgeAttr e p1 p2 = Except.ok a) : ¬ failsToInt e p1 p2 := by
  unfold parseEdgeAttr at h
  simp only [bind, Except.bind] at h
  repeat' split at h
  all_goals simp_all [failsToInt]

lemma addEdgeRec_error_of_fails (e : EdgeRec) (p1 p2 : PolicyRec)
    (h1 : e.node1_policy = some p1) (h2 : e.node2_policy = some p2)
    (hf : failsToInt e p1 p2) : ∀ g : Graph, addEdgeRec g e = Except.error () := by
  intro g
  cases hpa : parseEdgeAttr e p1 p2 with
  | ok a => exact absurd hf (parseEdgeAttr_ok_all e p1 p2 a hpa)
  | error u => cases u; simp [addEdgeRec, h1, h2, hpa]

lemma foldlM_addEdgeRec_error (es : List EdgeRec) (e : EdgeRec) (he : e ∈ es)
    (hfail : ∀ g, addEdgeRec g e = Except.error ()) :
    ∀ g : Graph, es.foldlM addEdgeRec g = Except.error () := by
  induction es with
  | nil => cases he
  | cons x xs ih =>
    intro g
    rcases List.mem_cons.mp he with rfl | hmem
    · rw [List.foldlM_cons, hfail g]
      rfl
    · cases hx : addEdgeRec g x with
      | error u =>
        cases u
        rw [List.foldlM_cons, hx]
        rfl
      | ok g' =>
        simp only [List.foldlM_cons, hx]
        simpa using ih hmem g'

/-- C8: an edge record with both policies present and a non-numeric
value in any int()-coerced field makes parse_graph_from_json raise, and
the whole pipeline aborts with a parse error (no graph is produced) for
every flag combination. -/
theorem non_numeric_field_aborts (j : JsonGraph) (e : EdgeRec) (p1 p2 : PolicyRec)
    (he : e ∈ j.edges) (h1 : e.node1_policy = some p1) (h2 : e.node2_policy = some p2)
    (hf : failsToInt e p1 p2) :
    parse_graph_from_json j = Except.error () ∧
    ∀ args : Args, runPipeline args j = Except.error PipeErr.malformed := by
  have hparse : parse_graph_from_json j = Except.error () :=
    foldlM_addEdgeRec_error j.edges e he (addEdgeRec_error_of_fails e p1 p2 h1 h2 hf) _
  refine ⟨hparse, fun args => ?_⟩
  simp only [runPipeline, hparse]
  rfl

/-- C8 witness: the concrete document whose single edge carries the
capacity "notanumber" makes the parse and the whole pipeline abort. -/
theorem non_numeric_field_aborts_w :
    parse_graph_from_json jBadCapacity = Except.error () ∧
    runPipeline ⟨false, false⟩ jBadCapacity = Except.error PipeErr.malformed := by
  have h := non_numeric_field_aborts jBadCapacity
    ({ exEdge "a" "b" with capacity := JVal.jstr "notanumber" }) (exPolicy 1) (exPolicy 2)
    (by simp [jBadCapacity]) rfl rfl (Or.inl rfl)
  exact ⟨h.1, h.2 ⟨false, false⟩⟩

/-! ## Node insertion: last write wins -/

lemma any_key_iff (g : Graph) (k : String) :
    (g.nodes.any (fun p => p.1 == k)) = true ↔ k ∈ nodeKeys g := by
  rw [mem_nodeKeys_iff]
  simp [List.any_eq_true]

lemma find?_overwrite_self (l : List (String × Option JVal)) (k : String) (v : JVal)
    (h : l.any (fun p => p.1 == k) = true) :
    (l.map (fun p => if p.1 == k then (k, some v) else p)).find? (fun p => p.1 == k)
      = some (k, some v) := by
  induction l with
  | nil => simp at h
  | cons p l ih =>
    by_cases hp : p.1 = k
    · simp only [List.map_cons, if_pos (beq_iff_eq.mpr hp)]
      exact List.find?_cons_of_pos _ (by simp)
    · have hb : (p.1 == k) = false := beq_eq_false_iff_ne.mpr hp
      simp only [List.map_cons, hb, Bool.false_eq_true, if_false]
      rw [List.find?_cons_of_neg _ (by simp [hb])]
      apply ih
      simpa [hb] using h


lemma find?_overwrite_ne (l : List (String × Option JVal)) (k : String) (v : JVal)
    (k' : String) (hne : k' ≠ k) :
    (l.map (fun p => if p.1 == k then (k, some v) else p)).find? (fun p => p.1 == k')
      = l.find? (fun p => p.1 == k') := by
  induction l with
  | nil => rfl
  | cons p l ih =>
    by_cases hp : p.1 = k
    · simp only [List.map_cons, if_pos (beq_iff_eq.mpr hp)]
      have h1 : ¬(((k, some v) : String × Option JVal).1 == k') = true := by
        simp [beq_iff_eq]
        exact fun h => hne h.symm
      have h2 : ¬((p.1 == k') = true) := by
        simp [beq_iff_eq, hp]
        exact fun h => hne h.symm
      rw [List.find?_cons_of_neg (p := fun q : String × Option JVal => q.1 == k') _ h1,
        List.find?_cons_of_neg (p := fun q : String × Option JVal => q.1 == k') _ h2]
      exact ih
    · have hc : ¬((p.1 == k) = true) := by simp [hp]
      simp only [List.map_cons, if_neg hc]
      by_cases hp' : p.1 = k'
      · rw [List.find?_cons_of_pos (p := fun q : String × Option JVal => q.1 == k') _ (beq_iff_eq.mpr hp'),
          List.find?_cons_of_pos (p := fun q : String × Option JVal => q.1 == k') _ (beq_iff_eq.mpr hp')]
      · have hc' : ¬((p.1 == k') = true) := by simp [hp']
        rw [List.find?_cons_of_neg (p := fun q : String × Option JVal => q.1 == k') _ hc',
          List.find?_cons_of_neg (p := fun q : String × Option JVal => q.1 == k') _ hc']
        exact ih

lemma lookupNode_addNode_self (g : Graph) (k : String) (v : JVal) :
    lookupNode (addNode g k v) k = some (some v) := by
  unfold addNode lookupNode
  split
  · rename_i h
    rw [find?_overwrite_self g.nodes k v h]
    rfl
  · rename_i h
    rw [List.find?_append]
    have hnone : g.nodes.find? (fun p => p.1 == k) = none :=
      List.find?_eq_none.mpr (fun p hp hb => h (List.any_eq_true.mpr ⟨p, hp, hb⟩))
    rw [hnone]
    simp

lemma lookupNode_addNode_ne (g : Graph) (k : String) (v : JVal) (k' : String)
    (hne : k' ≠ k) : lookupNode (addNode g k v) k' = lookupNode g k' := by
  unfold addNode lookupNode
  split
  · rw [find?_overwrite_ne g.nodes k v k' hne]
  · rw [List.find?_append]
    have hsingle : List.find? (fun p => p.1 == k') [(k, some v)] = none := by
      rw [List.find?_eq_none]
      intro x hx
      simp at hx
      subst hx
      simp [beq_iff_eq]
      exact fun h => hne h.symm
    rw [hsingle]
    cases g.nodes.find? (fun p => p.1 == k') <;> rfl

lemma lastNodeRec_cons (n : NodeRec) (ns : List NodeRec) (k : String) :
    lastNodeRec (n :: ns) k
      = (lastNodeRec ns k).or (if n.pub_key == k then some n else none) := by
  unfold lastNodeRec
  rw [List.reverse_cons, List.find?_append]
  congr 1
  cases hb : (n.pub_key == k) <;> simp [List.find?, hb]

lemma foldl_addNode_lookup (ns : List NodeRec) : ∀ (g : Graph) (k : String),
    lookupNode (ns.foldl (fun g n => addNode g n.pub_key n.last_update) g) k
      = match lastNodeRec ns k with
        | some n => some (some n.last_update)
        | none => lookupNode g k := by
  induction ns with
  | nil => intro g k; rfl
  | cons n ns ih =>
    intro g k
    rw [List.foldl_cons, ih, lastNodeRec_cons]
    cases hl : lastNodeRec ns k with
    | some m => rfl
    | none =>
      by_cases hnk : n.pub_key = k
      · rw [Option.none_or, if_pos (beq_iff_eq.mpr hnk)]
        subst hnk
        exact lookupNode_addNode_self g n.pub_key n.last_update
      · have hc : ¬((n.pub_key == k) = true) := by simp [hnk]
        rw [Option.none_or, if_neg hc]
        exact lookupNode_addNode_ne g n.pub_key n.last_update k (fun h => hnk h.symm)

/-! ## Well-formedness of every graph the program builds -/

lemma addNode_edges (g : Graph) (k : String) (v : JVal) : (addNode g k v).edges = g.edges := by
  unfold addNode
  split <;> rfl

lemma nodeKeys_addNode_present (g : Graph) (k : String) (v : JVal)
    (h : (g.nodes.any (fun p => p.1 == k)) = true) :
    nodeKeys (addNode g k v) = nodeKeys g := by
  unfold addNode nodeKeys
  rw [if_pos h]
  simp only [List.map_map]
  apply List.map_congr_left
  intro p hp
  simp only [Function.comp_apply]
  by_cases hpk : p.1 = k
  · rw [if_pos (beq_iff_eq.mpr hpk)]
    exact hpk.symm
  · have hc : ¬((p.1 == k) = true) := by simp [hpk]
    rw [if_neg hc]

lemma nodeKeys_addNode_absent (g : Graph) (k : String) (v : JVal)
    (h : (g.nodes.any (fun p => p.1 == k)) = false) :
    nodeKeys (addNode g k v) = nodeKeys g ++ [k] := by
  unfold addNode nodeKeys
  rw [if_neg (by simp [h])]
  simp

lemma nodeKeys_addNode_nodup (g : Graph) (k : String) (v : JVal)
    (h : (nodeKeys g).Nodup) : (nodeKeys (addNode g k v)).Nodup := by
  cases ha : g.nodes.any (fun p => p.1 == k) with
  | true => rw [nodeKeys_addNode_present g k v ha]; exact h
  | false =>
    rw [nodeKeys_addNode_absent g k v ha]
    rw [List.nodup_append]
    refine ⟨h, List.nodup_singleton k, ?_⟩
    intro x hx hx'
    simp only [List.mem_singleton] at hx'
    subst hx'
    exact absurd ((any_key_iff g x).mpr hx) (by simp [ha])

lemma mem_nodeKeys_addNode_mono (g : Graph) (k : String) (v : JVal) (x : String)
    (h : x ∈ nodeKeys g) : x ∈ nodeKeys (addNode g k v) := by
  cases ha : g.nodes.any (fun p => p.1 == k) with
  | true => rw [nodeKeys_addNode_present g k v ha]; exact h
  | false => rw [nodeKeys_addNode_absent g k v ha]; exact List.mem_append_left _ h

lemma nodeKeys_ensureNode_nodup (g : Graph) (k : String)
    (h : (nodeKeys g).Nodup) : (nodeKeys (ensureNode g k)).Nodup := by
  unfold ensureNode
  split
  · exact h
  · rename_i hcond
    unfold nodeKeys
    rw [List.map_append, List.nodup_append]
    refine ⟨h, List.nodup_singleton k, ?_⟩
    intro x hx hx'
    simp only [List.map_cons, List.map_nil, List.mem_singleton] at hx'
    subst hx'
    exact hcond ((any_key_iff g x).mpr hx)

lemma nodeKeys_ensureNode_sub (g : Graph) (k x : String)
    (h : x ∈ nodeKeys (ensureNode g k)) : x ∈ nodeKeys g ∨ x = k := by
  unfold ensureNode at h
  split at h
  · exact Or.inl h
  · unfold nodeKeys at h
    rw [List.map_append, List.mem_append] at h
    rcases h with h | h
    · exact Or.inl h
    · simp only [List.map_cons, List.map_nil, List.mem_singleton] at h
      exact Or.inr h

lemma mem_nodes_ensureNode_mono (g : Graph) (k : String) (p : String × Option JVal)
    (h : p ∈ g.nodes) : p ∈ (ensureNode g k).nodes := by
  unfold ensureNode
  split
  · exact h
  · exact List.mem_append_left _ h

lemma ensureNode_absent_mem (g : Graph) (k : String) (h : k ∉ nodeKeys g) :
    (k, (none : Option JVal)) ∈ (ensureNode g k).nodes := by
  unfold ensureNode
  rw [if_neg (fun hc => h ((any_key_iff g k).mp hc))]
  exact List.mem_append_right _ (List.mem_singleton.mpr rfl)

lemma empty_wf : Graph.empty.Wf :=
  ⟨List.nodup_nil, fun e he => absurd he (List.not_mem_nil e)⟩

lemma ensureNode_wf (g : Graph) (k : String) (h : g.Wf) : (ensureNode g k).Wf := by
  refine ⟨nodeKeys_ensureNode_nodup g k h.1, ?_⟩
  intro e he
  rw [ensureNode_edges] at he
  obtain ⟨h1, h2⟩ := h.2 e he
  exact ⟨mem_nodeKeys_ensureNode_mono g k _ h1, mem_nodeKeys_ensureNode_mono g k _ h2⟩

lemma addNode_wf (g : Graph) (k : String) (v : JVal) (h : g.Wf) : (addNode g k v).Wf := by
  refine ⟨nodeKeys_addNode_nodup g k v h.1, ?_⟩
  intro e he
  rw [addNode_edges] at he
  obtain ⟨h1, h2⟩ := h.2 e he
  exact ⟨mem_nodeKeys_addNode_mono g k v _ h1, mem_nodeKeys_addNode_mono g k v _ h2⟩

lemma addEdge_wf (g : Graph) (u v : String) (a : EdgeAttr) (h : g.Wf) :
    (addEdge g u v a).Wf := by
  have hwf1 : (ensureNode (ensureNode g u) v).Wf := ensureNode_wf _ _ (ensureNode_wf _ _ h)
  refine ⟨by rw [nodeKeys_addEdge]; exact hwf1.1, ?_⟩
  intro e he
  rw [nodeKeys_addEdge]
  simp only [addEdge] at he
  split at he
  · obtain ⟨e0, he0, hmap⟩ := List.mem_map.mp he
    obtain ⟨h1, h2⟩ := hwf1.2 e0 he0
    have hends : e.1 = e0.1 ∧ e.2.1 = e0.2.1 := by
      by_cases hsp : samePair (e0.1, e0.2.1) (u, v) = true
      · rw [if_pos hsp] at hmap
        rw [← hmap]
        exact ⟨rfl, rfl⟩
      · rw [if_neg hsp] at hmap
        rw [← hmap]
        exact ⟨rfl, rfl⟩
    rw [hends.1, hends.2]
    exact ⟨h1, h2⟩
  · rcases List.mem_append.mp he with he' | he'
    · exact hwf1.2 e he'
    · simp only [List.mem_singleton] at he'
      subst he'
      refine ⟨?_, mem_nodeKeys_ensureNode_self _ _⟩
      exact mem_nodeKeys_ensureNode_mono _ _ _ (mem_nodeKeys_ensureNode_self _ _)

lemma foldl_addNode_wf (ns : List NodeRec) : ∀ g : Graph, g.Wf →
    (ns.foldl (fun g n => addNode g n.pub_key n.last_update) g).Wf := by
  induction ns with
  | nil => intro g h; exact h
  | cons n ns ih =>
    intro g h
    rw [List.foldl_cons]
    exact ih _ (addNode_wf g n.pub_key n.last_update h)

lemma buildNodes_wf (ns : List NodeRec) : (buildNodes ns).Wf :=
  foldl_addNode_wf ns Graph.empty empty_wf

lemma addEdgeRec_wf (g : Graph) (e : EdgeRec) (g' : Graph)
    (h : addEdgeRec g e = Except.ok g') (hw : g.Wf) : g'.Wf := by
  unfold addEdgeRec at h
  split at h
  · split at h
    · rename_i a hpa
      injection h with h
      subst h
      exact addEdge_wf g _ _ a hw
    · exact Except.noConfusion h
  · injection h with h
    subst h
    exact hw

lemma foldlM_addEdgeRec_wf (es : List EdgeRec) : ∀ g g' : Graph,
    es.foldlM addEdgeRec g = Except.ok g' → g.Wf → g'.Wf := by
  induction es with
  | nil =>
    intro g g' h hw
    rw [List.foldlM_nil] at h
    injection h with h
    subst h
    exact hw
  | cons e es ih =>
    intro g g' h hw
    rw [List.foldlM_cons] at h
    cases hx : addEdgeRec g e with
    | error u =>
      rw [hx] at h
      exact Except.noConfusion h
    | ok g1 =>
      rw [hx] at h
      exact ih g1 g' h (addEdgeRec_wf g e g1 hx hw)

lemma parse_graph_wf (j : JsonGraph) (g : Graph)
    (h : parse_graph_from_json j = Except.ok g) : g.Wf :=
  foldlM_addEdgeRec_wf j.edges (buildNodes j.nodes) g h (buildNodes_wf j.nodes)

/-! ## Stability of node lookups under edge insertion -/

lemma lookupNode_ensureNode_stable (g : Graph) (k' k : String) (o : Option JVal)
    (h : lookupNode g k = some o) : lookupNode (ensureNode g k') k = some o := by
  unfold ensureNode
  split
  · exact h
  · unfold lookupNode at h ⊢
    cases hf : g.nodes.find? (fun p => p.1 == k) with
    | none => rw [hf] at h; exact Option.noConfusion h
    | some p =>
      rw [hf] at h
      rw [List.find?_append, hf]
      exact h

lemma lookupNode_addEdge_stable (g : Graph) (u v : String) (a : EdgeAttr)
    (k : String) (o : Option JVal) (h : lookupNode g k = some o) :
    lookupNode (addEdge g u v a) k = some o := by
  unfold lookupNode
  rw [addEdge_nodes]
  exact lookupNode_ensureNode_stable _ _ _ _ (lookupNode_ensureNode_stable _ _ _ _ h)

lemma addEdgeRec_lookup_stable (g : Graph) (e : EdgeRec) (g1 : Graph) (k : String)
    (o : Option JVal) (h : addEdgeRec g e = Except.ok g1)
    (hl : lookupNode g k = some o) : lookupNode g1 k = some o := by
  unfold addEdgeRec at h
  split at h
  · split at h
    · rename_i a hpa
      injection h with h
      subst h
      exact lookupNode_addEdge_stable g _ _ a k o hl
    · exact Except.noConfusion h
  · injection h with h
    subst h
    exact hl

lemma foldlM_lookup_stable (es : List EdgeRec) : ∀ (g g' : Graph) (k : String) (o : Option JVal),
    es.foldlM addEdgeRec g = Except.ok g' → lookupNode g k = some o →
    lookupNode g' k = some o := by
  induction es with
  | nil =>
    intro g g' k o h hl
    rw [List.foldlM_nil] at h
    injection h with h
    subst h
    exact hl
  | cons e es ih =>
    intro g g' k o h hl
    rw [List.foldlM_cons] at h
    cases hx : addEdgeRec g e with
    | error u =>
      rw [hx] at h
      exact Except.noConfusion h
    | ok g1 =>
      rw [hx] at h
      exact ih g1 g' k o h (addEdgeRec_lookup_stable g e g1 k o hx hl)

/-- C5: a graph built from records with duplicated pub_key identities
has exactly one node per distinct identity (its key list has no
duplicates), and the stored last_update of an identity is the one of its
last node record in input order. -/
theorem node_identity_last_write_wins (j : JsonGraph) (g : Graph)
    (h : parse_graph_from_json j = Except.ok g) :
    (nodeKeys g).Nodup ∧
    ∀ (k : String) (n : NodeRec), lastNodeRec j.nodes k = some n →
      lookupNode g k = some (some n.last_update) := by
  refine ⟨(parse_graph_wf j g h).1, ?_⟩
  intro k n hlast
  have hh := foldl_addNode_lookup j.nodes Graph.empty k
  rw [hlast] at hh
  exact foldlM_lookup_stable j.edges (buildNodes j.nodes) g k (some n.last_update) h hh

/-- C5 witness: with the duplicated records nsDup the graph has unique
keys and the identity a carries the last_update of the last record. -/
theorem node_identity_last_write_wins_w :
    (nodeKeys (buildNodes nsDup)).Nodup ∧
    lookupNode (buildNodes nsDup) "a" = some (some (JVal.jint 3)) := by
  have h := node_identity_last_write_wins ⟨nsDup, []⟩ (buildNodes nsDup) rfl
  exact ⟨h.1, h.2 "a" ⟨"a", JVal.jint 3⟩ rfl⟩

/-- C9: node insertion stores last_update verbatim with no int()
coercion: the node phase of the parse never fails whatever the
last_update values are, the stored attribute is the raw value of the
last record, and a string-valued last_update parses fine even though the
same value would fail the int() coercion used for edge fields. -/
theorem node_last_update_verbatim :
    (∀ ns : List NodeRec, parse_graph_from_json ⟨ns, []⟩ = Except.ok (buildNodes ns)) ∧
    (∀ (ns : List NodeRec) (k : String) (n : NodeRec), lastNodeRec ns k = some n →
        lookupNode (buildNodes ns) k = some (some n.last_update)) ∧
    parse_graph_from_json ⟨[⟨"n", JVal.jstr "notanint"⟩], []⟩
      = Except.ok ⟨[("n", some (JVal.jstr "notanint"))], []⟩ ∧
    toInt (JVal.jstr "notanint") = Except.error () := by
  refine ⟨fun ns => rfl, ?_, rfl, rfl⟩
  intro ns k n hlast
  have hh := foldl_addNode_lookup ns Graph.empty k
  rw [hlast] at hh
  exact hh

/-- C9 witness: the concrete string-valued last_update is stored
verbatim. -/
theorem node_last_update_verbatim_w :
    lookupNode (buildNodes [⟨"n", JVal.jstr "notanint"⟩]) "n"
      = some (some (JVal.jstr "notanint")) :=
  node_last_update_verbatim.2.1 [⟨"n", JVal.jstr "notanint"⟩] "n"
    ⟨"n", JVal.jstr "notanint"⟩ rfl

/-- C7: an edge record (both policies present) whose endpoint identity
is not among the graph's nodes is still inserted, and the missing
endpoint is auto-created as a bare node with no attributes. -/
theorem dangling_endpoint_auto_created (g : Graph) (e : EdgeRec) (p1 p2 : PolicyRec)
    (a : EdgeAttr) (hwf : g.Wf)
    (h1 : e.node1_policy = some p1) (h2 : e.node2_policy = some p2)
    (ha : parseEdgeAttr e p1 p2 = Except.ok a)
    (u : String) (hu : u = e.node1_pub ∨ u = e.node2_pub) (habs : u ∉ nodeKeys g) :
    ∃ g', addEdgeRec g e = Except.ok g' ∧
      (e.node1_pub, e.node2_pub, a) ∈ g'.edges ∧
      (u, (none : Option JVal)) ∈ g'.nodes := by
  refine ⟨addEdge g e.node1_pub e.node2_pub a, by simp [addEdgeRec, h1, h2, ha], ?_, ?_⟩
  · cases hb : g.edges.any (fun ed => samePair (ed.1, ed.2.1) (e.node1_pub, e.node2_pub)) with
    | false =>
      rw [addEdge_edges_append g _ _ a hb]
      exact List.mem_append_right _ (List.mem_singleton.mpr rfl)
    | true =>
      exfalso
      obtain ⟨ed, hed, hsp⟩ := List.any_eq_true.mp hb
      obtain ⟨hE1, hE2⟩ := hwf.2 ed hed
      simp only [samePair, Bool.or_eq_true, Bool.and_eq_true, beq_iff_eq] at hsp
      rcases hu with rfl | rfl
      · rcases hsp with ⟨ha1, ha2⟩ | ⟨ha1, ha2⟩
        · exact habs (ha1 ▸ hE1)
        · exact habs (ha2 ▸ hE2)
      · rcases hsp with ⟨ha1, ha2⟩ | ⟨ha1, ha2⟩
        · exact habs (ha2 ▸ hE2)
        · exact habs (ha1 ▸ hE1)
  · rw [addEdge_nodes]
    rcases hu with rfl | rfl
    · exact mem_nodes_ensureNode_mono _ _ _ (ensureNode_absent_mem g _ habs)
    · by_cases hn : e.node2_pub ∈ nodeKeys (ensureNode g e.node1_pub)
      · rcases nodeKeys_ensureNode_sub g e.node1_pub e.node2_pub hn with hmem | heq
        · exact absurd hmem habs
        · apply mem_nodes_ensureNode_mono
          rw [heq]
          exact ensureNode_absent_mem g _ (heq ▸ habs)
      · exact ensureNode_absent_mem _ _ hn

/-- C7 witness: the edge a-z inserted into the one-node graph a creates
the bare node z and the edge between a and z. -/
theorem dangling_endpoint_auto_created_w :
    ∃ g', addEdgeRec gOneNode (exEdge "a" "z") = Except.ok g' ∧
      ("a", "z", exAttr) ∈ g'.edges ∧
      ("z", (none : Option JVal)) ∈ g'.nodes :=
  dangling_endpoint_auto_created gOneNode (exEdge "a" "z") (exPolicy 1) (exPolicy 2) exAttr
    (by constructor
        · simp [gOneNode, nodeKeys]
        · intro e he
          simp [gOneNode] at he)
    rfl rfl rfl "z" (Or.inr rfl) (by simp [gOneNode, nodeKeys])

/-! ## The breadth-first search computes graph-theoretic reachability -/

lemma contains_eq_false_iff (l : List String) (a : String) :
    (l.contains a) = false ↔ a ∉ l := by
  rw [Bool.eq_false_iff]
  exact not_congr List.elem_iff

lemma adjacentB_iff (g : Graph) (x y : String) :
    adjacentB g x y = true ↔ Adj g x y := by
  simp [adjacentB, Adj, List.any_eq_true, Bool.or_eq_true, Bool.and_eq_true, beq_iff_eq]

lemma adj_symm (g : Graph) : Symmetric (Adj g) := by
  rintro x y ⟨e, he, hor⟩
  exact ⟨e, he, hor.symm⟩

lemma reach_symm (g : Graph) (x y : String) (h : Reach g x y) : Reach g y x :=
  Relation.ReflTransGen.symmetric (adj_symm g) h

lemma mem_reachStep_left (g : Graph) (s : List String) (y : String) (h : y ∈ s) :
    y ∈ reachStep g s := List.mem_append_left _ h

lemma reachAux_mem_mono (g : Graph) : ∀ (n : Nat) (s : List String) (y : String),
    y ∈ s → y ∈ reachAux g n s := by
  intro n
  induction n with
  | zero => intro s y h; exact h
  | succ n ih => intro s y h; exact ih (reachStep g s) y (mem_reachStep_left g s y h)

lemma mem_reachStep_cases (g : Graph) (s : List String) (y : String) (h : y ∈ reachStep g s) :
    y ∈ s ∨ (y ∈ nodeKeys g ∧ y ∉ s ∧ ∃ x ∈ s, adjacentB g x y = true) := by
  rcases List.mem_append.mp h with h | h
  · exact Or.inl h
  · obtain ⟨hy, hcond⟩ := List.mem_filter.mp h
    rw [Bool.and_eq_true, Bool.not_eq_true'] at hcond
    exact Or.inr ⟨hy, (contains_eq_false_iff s y).mp hcond.1, List.any_eq_true.mp hcond.2⟩

lemma reachAux_sound (g : Graph) (x : String) : ∀ (n : Nat) (s : List String),
    (∀ y ∈ s, Reach g x y) → ∀ y ∈ reachAux g n s, Reach g x y := by
  intro n
  induction n with
  | zero => intro s hs y hy; exact hs y hy
  | succ n ih =>
    intro s hs y hy
    refine ih (reachStep g s) ?_ y hy
    intro z hz
    rcases mem_reachStep_cases g s z hz with hz | ⟨_, _, x', hx', hadj⟩
    · exact hs z hz
    · exact Relation.ReflTransGen.tail (hs x' hx') ((adjacentB_iff g x' z).mp hadj)

lemma reachFrom_sound (g : Graph) (x : String) : ∀ y ∈ reachFrom g x, Reach g x y := by
  intro y hy
  refine reachAux_sound g x _ [x] ?_ y hy
  intro z hz
  rw [List.mem_singleton] at hz
  subst hz
  exact Relation.ReflTransGen.refl

lemma reachStep_subset_keys (g : Graph) (s : List String)
    (hs : ∀ y ∈ s, y ∈ nodeKeys g) : ∀ y ∈ reachStep g s, y ∈ nodeKeys g := by
  intro y hy
  rcases mem_reachStep_cases g s y hy with h | ⟨h, _, _⟩
  · exact hs y h
  · exact h

lemma reachAux_subset_keys (g : Graph) : ∀ (n : Nat) (s : List String),
    (∀ y ∈ s, y ∈ nodeKeys g) → ∀ y ∈ reachAux g n s, y ∈ nodeKeys g := by
  intro n
  induction n with
  | zero => intro s hs y hy; exact hs y hy
  | succ n ih => intro s hs y hy; exact ih (reachStep g s) (reachStep_subset_keys g s hs) y hy

lemma reachFrom_subset_keys (g : Graph) (x : String) (hx : x ∈ nodeKeys g) :
    ∀ y ∈ reachFrom g x, y ∈ nodeKeys g := by
  refine reachAux_subset_keys g _ [x] ?_
  intro y hy
  rw [List.mem_singleton] at hy
  subst hy
  exact hx

lemma reachStep_nodup (g : Graph) (s : List String) (hk : (nodeKeys g).Nodup)
    (hs : s.Nodup) : (reachStep g s).Nodup := by
  unfold reachStep
  rw [List.nodup_append]
  refine ⟨hs, List.Nodup.filter _ hk, ?_⟩
  intro y hy hy'
  obtain ⟨_, hcond⟩ := List.mem_filter.mp hy'
  rw [Bool.and_eq_true, Bool.not_eq_true'] at hcond
  exact (contains_eq_false_iff s y).mp hcond.1 hy

lemma reachAux_nodup (g : Graph) (hk : (nodeKeys g).Nodup) : ∀ (n : Nat) (s : List String),
    s.Nodup → (reachAux g n s).Nodup := by
  intro n
  induction n with
  | zero => intro s hs; exact hs
  | succ n ih => intro s hs; exact ih (reachStep g s) (reachStep_nodup g s hk hs)

lemma reachFrom_nodup (g : Graph) (x : String) (hk : (nodeKeys g).Nodup) :
    (reachFrom g x).Nodup :=
  reachAux_nodup g hk _ [x] (List.nodup_singleton x)

lemma closed_of_reachStep_eq (g : Graph) (s : List String) (h : reachStep g s = s) :
    ∀ x ∈ s, ∀ y ∈ nodeKeys g, Adj g x y → y ∈ s := by
  intro x hx y hy hadj
  by_contra hys
  have hmem : y ∈ reachStep g s := by
    unfold reachStep
    refine List.mem_append_right _ (List.mem_filter.mpr ⟨hy, ?_⟩)
    rw [Bool.and_eq_true, Bool.not_eq_true']
    exact ⟨(contains_eq_false_iff s y).mpr hys,
      List.any_eq_true.mpr ⟨x, hx, (adjacentB_iff g x y).mpr hadj⟩⟩
  rw [h] at hmem
  exact hys hmem

lemma reachAux_of_fixed (g : Graph) (s : List String) (h : reachStep g s = s) :
    ∀ n, reachAux g n s = s := by
  intro n
  induction n with
  | zero => rfl
  | succ n ih =>
    show reachAux g n (reachStep g s) = s
    rw [h]
    exact ih

lemma nodup_subset_length (l1 l2 : List String) (h1 : l1.Nodup)
    (h : ∀ x ∈ l1, x ∈ l2) : l1.length ≤ l2.length := by
  calc l1.length = l1.toFinset.card := (List.toFinset_card_of_nodup h1).symm
    _ ≤ l2.toFinset.card :=
        Finset.card_le_card (fun x hx => List.mem_toFinset.mpr (h x (List.mem_toFinset.mp hx)))
    _ ≤ l2.length := List.toFinset_card_le l2

lemma mem_of_nodup_length_le (s keys : List String) (hs : s.Nodup)
    (hsub : ∀ x ∈ s, x ∈ keys) (hlen : keys.length ≤ s.length) :
    ∀ y ∈ keys, y ∈ s := by
  intro y hy
  by_contra hys
  have hnodup : (y :: s).Nodup := List.nodup_cons.mpr ⟨hys, hs⟩
  have hsub' : ∀ x ∈ y :: s, x ∈ keys := by
    intro x hx
    rcases List.mem_cons.mp hx with rfl | hx
    · exact hy
    · exact hsub x hx
  have := nodup_subset_length (y :: s) keys hnodup hsub'
  rw [List.length_cons] at this
  omega

lemma length_step_of_ne (g : Graph) (s : List String) (h : reachStep g s ≠ s) :
    s.length + 1 ≤ (reachStep g s).length := by
  unfold reachStep at *
  cases hf : (nodeKeys g).filter (fun y => !s.contains y && s.any (fun x => adjacentB g x y)) with
  | nil => exact absurd (by rw [hf, List.append_nil]) h
  | cons a t =>
    rw [List.length_append, List.length_cons]
    omega

lemma reachAux_fixed_point (g : Graph) (hk : (nodeKeys g).Nodup) :
    ∀ (fuel : Nat) (s : List String), s.Nodup → (∀ y ∈ s, y ∈ nodeKeys g) →
      (nodeKeys g).length ≤ fuel + s.length →
      reachStep g (reachAux g fuel s) = reachAux g fuel s := by
  intro fuel
  induction fuel with
  | zero =>
    intro s hs hsub hlen
    show reachStep g s = s
    have hall : ∀ y ∈ nodeKeys g, y ∈ s :=
      mem_of_nodup_length_le s (nodeKeys g) hs hsub (by omega)
    unfold reachStep
    have hnil : (nodeKeys g).filter
        (fun y => !s.contains y && s.any (fun x => adjacentB g x y)) = [] := by
      rw [List.filter_eq_nil_iff]
      intro y hy
      rw [Bool.and_eq_true, Bool.not_eq_true']
      rintro ⟨hc, _⟩
      exact (contains_eq_false_iff s y).mp hc (hall y hy)
    rw [hnil, List.append_nil]
  | succ fuel ih =>
    intro s hs hsub hlen
    by_cases hfix : reachStep g s = s
    · show reachStep g (reachAux g fuel (reachStep g s)) = reachAux g fuel (reachStep g s)
      rw [hfix, reachAux_of_fixed g s hfix fuel]
      exact hfix
    · have hstep : s.length + 1 ≤ (reachStep g s).length := length_step_of_ne g s hfix
      show reachStep g (reachAux g fuel (reachStep g s)) = reachAux g fuel (reachStep g s)
      exact ih (reachStep g s) (reachStep_nodup g s hk hs)
        (reachStep_subset_keys g s hsub) (by omega)

lemma reachFrom_fixed (g : Graph) (x : String) (hk : (nodeKeys g).Nodup)
    (hx : x ∈ nodeKeys g) : reachStep g (reachFrom g x) = reachFrom g x := by
  unfold reachFrom
  refine reachAux_fixed_point g hk (nodeKeys g).length [x] (List.nodup_singleton x) ?_ ?_
  · intro y hy
    rw [List.mem_singleton] at hy
    subst hy
    exact hx
  · rw [List.length_singleton]
    omega

lemma reachFrom_complete (g : Graph) (hwf : g.Wf) (x : String) (hx : x ∈ nodeKeys g) :
    ∀ y, Reach g x y → y ∈ reachFrom g x := by
  intro y h
  induction h with
  | refl => exact reachAux_mem_mono g _ [x] x (List.mem_singleton.mpr rfl)
  | tail hstep hadj ih =>
    rename_i b c
    have hc : c ∈ nodeKeys g := by
      obtain ⟨e, he, hor⟩ := hadj
      obtain ⟨h1, h2⟩ := hwf.2 e he
      rcases hor with ⟨hb, hcc⟩ | ⟨hcc, hb⟩
      · exact hcc ▸ h2
      · exact hcc ▸ h1
    exact closed_of_reachStep_eq g (reachFrom g x) (reachFrom_fixed g x hwf.1 hx)
      b ih c hc hadj

lemma reachFrom_iff (g : Graph) (hwf : g.Wf) (x : String) (hx : x ∈ nodeKeys g)
    (y : String) : y ∈ reachFrom g x ↔ y ∈ nodeKeys g ∧ Reach g x y := by
  constructor
  · intro h
    exact ⟨reachFrom_subset_keys g x hx y h, reachFrom_sound g x y h⟩
  · rintro ⟨_, h⟩
    exact reachFrom_complete g hwf x hx y h

lemma self_mem_reachFrom (g : Graph) (x : String) : x ∈ reachFrom g x :=
  reachAux_mem_mono g _ [x] x (List.mem_singleton.mpr rfl)

lemma adj_mem_keys (g : Graph) (hwf : g.Wf) (a b : String) (h : Adj g a b) :
    b ∈ nodeKeys g := by
  obtain ⟨e, he, hor⟩ := h
  obtain ⟨h1, h2⟩ := hwf.2 e he
  rcases hor with ⟨_, hb⟩ | ⟨hb, _⟩
  · exact hb ▸ h2
  · exact hb ▸ h1

/-! ## Component enumeration -/

lemma componentsAux_cover (g : Graph) : ∀ (todo seen : List String), ∀ k ∈ todo,
    k ∈ seen ∨ ∃ c ∈ componentsAux g todo seen, k ∈ c := by
  intro todo
  induction todo with
  | nil => intro seen k hk; cases hk
  | cons x rest ih =>
    intro seen k hk
    rcases List.mem_cons.mp hk with rfl | hk
    · by_cases hx : (seen.contains k) = true
      · exact Or.inl (List.elem_iff.mp hx)
      · refine Or.inr ⟨reachFrom g k, ?_, self_mem_reachFrom g k⟩
        unfold componentsAux
        rw [if_neg hx]
        exact List.mem_cons_self _ _
    · by_cases hx : (seen.contains x) = true
      · have := ih seen k hk
        unfold componentsAux
        rw [if_pos hx]
        exact this
      · have := ih (seen ++ reachFrom g x) k hk
        unfold componentsAux
        rw [if_neg hx]
        rcases this with hmem | ⟨c, hcm, hkc⟩
        · rcases List.mem_append.mp hmem with h | h
          · exact Or.inl h
          · exact Or.inr ⟨reachFrom g x, List.mem_cons_self _ _, h⟩
        · exact Or.inr ⟨c, List.mem_cons_of_mem _ hcm, hkc⟩

lemma componentsAux_rep (g : Graph) : ∀ (todo seen : List String),
    (∀ k ∈ todo, k ∈ nodeKeys g) →
    ∀ c ∈ componentsAux g todo seen, ∃ x ∈ nodeKeys g, c = reachFrom g x := by
  intro todo
  induction todo with
  | nil =>
    intro seen _ c hc
    unfold componentsAux at hc
    cases hc
  | cons x rest ih =>
    intro seen hsub c hc
    unfold componentsAux at hc
    by_cases hx : (seen.contains x) = true
    · rw [if_pos hx] at hc
      exact ih seen (fun k hk => hsub k (List.mem_cons_of_mem _ hk)) c hc
    · rw [if_neg hx] at hc
      rcases List.mem_cons.mp hc with rfl | hc
      · exact ⟨x, hsub x (List.mem_cons_self _ _), rfl⟩
      · exact ih _ (fun k hk => hsub k (List.mem_cons_of_mem _ hk)) c hc

lemma connected_components_cover (g : Graph) : ∀ k ∈ nodeKeys g,
    ∃ c ∈ connected_components g, k ∈ c := by
  intro k hk
  rcases componentsAux_cover g (nodeKeys g) [] k hk with h | h
  · exact absurd h (List.not_mem_nil k)
  · exact h

lemma connected_components_rep (g : Graph) : ∀ c ∈ connected_components g,
    ∃ x ∈ nodeKeys g, c = reachFrom g x :=
  componentsAux_rep g (nodeKeys g) [] (fun _ hk => hk)

/-! ## Induced subgraphs -/

lemma nodeKeys_induced (g : Graph) (s : List String) :
    nodeKeys (inducedSubgraph g s) = (nodeKeys g).filter (fun k => s.contains k) := by
  unfold nodeKeys inducedSubgraph
  rw [List.filter_map]
  rfl

lemma mem_nodeKeys_induced (g : Graph) (s : List String) (x : String) :
    x ∈ nodeKeys (inducedSubgraph g s) ↔ x ∈ nodeKeys g ∧ x ∈ s := by
  rw [nodeKeys_induced, List.mem_filter]
  simp [List.elem_iff]

lemma induced_subgraphOf (g : Graph) (s : List String) :
    SubgraphOf (inducedSubgraph g s) g := by
  constructor
  · intro p hp
    exact (List.mem_filter.mp hp).1
  · intro e he
    exact (List.mem_filter.mp he).1

lemma adj_induced (g : Graph) (s : List String) (m w : String) (hm : m ∈ s) (hw : w ∈ s)
    (hadj : Adj g m w) : Adj (inducedSubgraph g s) m w := by
  obtain ⟨e, he, hor⟩ := hadj
  refine ⟨e, List.mem_filter.mpr ⟨he, ?_⟩, hor⟩
  rw [Bool.and_eq_true]
  constructor
  · rcases hor with ⟨h1, _⟩ | ⟨h1, _⟩
    · exact List.elem_iff.mpr (by rw [h1]; exact hm)
    · exact List.elem_iff.mpr (by rw [h1]; exact hw)
  · rcases hor with ⟨_, h2⟩ | ⟨_, h2⟩
    · exact List.elem_iff.mpr (by rw [h2]; exact hw)
    · exact List.elem_iff.mpr (by rw [h2]; exact hm)

lemma reach_induced (g : Graph) (s : List String)
    (hcl : ∀ a ∈ s, ∀ b, Adj g a b → b ∈ s) (y : String) (hy : y ∈ s) :
    ∀ z, Reach g y z → z ∈ s ∧ Reach (inducedSubgraph g s) y z := by
  intro z h
  induction h with
  | refl => exact ⟨hy, Relation.ReflTransGen.refl⟩
  | tail hstep hadj ih =>
    rename_i m w
    obtain ⟨hm, hreach⟩ := ih
    have hw : w ∈ s := hcl m hm w hadj
    exact ⟨hw, Relation.ReflTransGen.tail hreach (adj_induced g s m w hm hw hadj)⟩

lemma length_induced_nodes (g : Graph) (c : List String) (hk : (nodeKeys g).Nodup)
    (hc : c.Nodup) (hsub : ∀ y ∈ c, y ∈ nodeKeys g) :
    (inducedSubgraph g c).nodes.length = c.length := by
  have h1 : (inducedSubgraph g c).nodes.length = (nodeKeys (inducedSubgraph g c)).length :=
    (List.length_map _ _).symm
  rw [h1, nodeKeys_induced]
  apply le_antisymm
  · apply nodup_subset_length _ _ (List.Nodup.filter _ hk)
    intro x hx
    obtain ⟨_, hxc⟩ := List.mem_filter.mp hx
    exact List.elem_iff.mp hxc
  · apply nodup_subset_length _ _ hc
    intro x hx
    exact List.mem_filter.mpr ⟨hsub x hx, List.elem_iff.mpr hx⟩

/-! ## The builtin max over the component subgraphs -/

lemma foldl_max_spec (t : List Graph) : ∀ best : Graph,
    ∃ M, t.foldl (fun b h => if b.nodes.length < h.nodes.length then h else b) best = M ∧
      (M = best ∨ M ∈ t) ∧ best.nodes.length ≤ M.nodes.length ∧
      ∀ x ∈ t, x.nodes.length ≤ M.nodes.length := by
  induction t with
  | nil =>
    intro best
    exact ⟨best, rfl, Or.inl rfl, le_refl _, fun x hx => absurd hx (List.not_mem_nil x)⟩
  | cons h t ih =>
    intro best
    obtain ⟨M, hM, hMor, hble, hall⟩ := ih (if best.nodes.length < h.nodes.length then h else best)
    refine ⟨M, by rw [List.foldl_cons]; exact hM, ?_, ?_, ?_⟩
    · rcases hMor with rfl | hMt
      · by_cases hlt : best.nodes.length < h.nodes.length
        · right
          rw [if_pos hlt]
          exact List.mem_cons_self _ _
        · left
          rw [if_neg hlt]
      · exact Or.inr (List.mem_cons_of_mem _ hMt)
    · refine le_trans ?_ hble
      by_cases hlt : best.nodes.length < h.nodes.length
      · rw [if_pos hlt]
        omega
      · rw [if_neg hlt]
    · intro x hx
      rcases List.mem_cons.mp hx with rfl | hx
      · refine le_trans ?_ hble
        by_cases hlt : best.nodes.length < x.nodes.length
        · rw [if_pos hlt]
        · rw [if_neg hlt]
          omega
      · exact hall x hx

lemma maxByLen_spec (l : List Graph) (hne : l ≠ []) :
    ∃ M, maxByLen l = Except.ok M ∧ M ∈ l ∧
      ∀ x ∈ l, x.nodes.length ≤ M.nodes.length := by
  cases l with
  | nil => exact absurd rfl hne
  | cons h t =>
    obtain ⟨M, hM, hMor, hble, hall⟩ := foldl_max_spec t h
    refine ⟨M, ?_, ?_, ?_⟩
    · show Except.ok (t.foldl (fun b h => if b.nodes.length < h.nodes.length then h else b) h)
        = Except.ok M
      rw [hM]
    · rcases hMor with rfl | hMt
      · exact List.mem_cons_self _ _
      · exact List.mem_cons_of_mem _ hMt
    · intro x hx
      rcases List.mem_cons.mp hx with rfl | hx
      · exact hble
      · exact hall x hx

lemma is_connected_false_nonempty (g : Graph) (h : is_connected g = Except.ok false) :
    nodeKeys g ≠ [] := by
  intro hnil
  unfold is_connected at h
  rw [hnil] at h
  exact Except.noConfusion h

/-- C3 amended: for every well-formed nonempty disconnected graph,
fix_connectivity returns exactly one of the connected-component
subgraphs: a connected subgraph of the input whose node count is at
least the size of every connected component (every duplicate-free list
of nodes reachable from a common node is no longer than it). -/
theorem largestComponent_of_disconnected (g : Graph) (hwf : g.Wf)
    (hdis : is_connected g = Except.ok false) :
    ∃ H, fix_connectivity g = Except.ok (some H) ∧
      H ∈ connected_component_subgraphs g ∧
      SubgraphOf H g ∧
      ConnectedG H ∧
      ∀ x ∈ nodeKeys g, ∀ c : List String, c.Nodup →
        (∀ y ∈ c, y ∈ nodeKeys g ∧ Reach g x y) → c.length ≤ H.nodes.length := by
  have hne : nodeKeys g ≠ [] := is_connected_false_nonempty g hdis
  have hsubne : connected_component_subgraphs g ≠ [] := by
    unfold connected_component_subgraphs connected_components
    cases hkeys : nodeKeys g with
    | nil => exact absurd hkeys hne
    | cons k rest => simp [componentsAux]
  obtain ⟨M, hMeq, hMmem, hMmax⟩ := maxByLen_spec _ hsubne
  have hfix : fix_connectivity g = Except.ok (some M) := by
    unfold fix_connectivity
    rw [hdis, hMeq]
    rfl
  obtain ⟨cM, hcMmem, hMdef⟩ := List.mem_map.mp hMmem
  obtain ⟨xM, hxM, hcM⟩ := connected_components_rep g cM hcMmem
  have hclosed : ∀ a ∈ cM, ∀ b, Adj g a b → b ∈ cM := by
    intro a ha b hadj
    have hb : b ∈ nodeKeys g := adj_mem_keys g hwf a b hadj
    rw [hcM] at ha ⊢
    exact closed_of_reachStep_eq g _ (reachFrom_fixed g xM hwf.1 hxM) a ha b hb hadj
  refine ⟨M, hfix, hMmem, ?_, ?_, ?_⟩
  · rw [← hMdef]
    exact induced_subgraphOf g cM
  · constructor
    · rw [← hMdef]
      intro hnil
      have hxmem : xM ∈ nodeKeys (inducedSubgraph g cM) :=
        (mem_nodeKeys_induced g cM xM).mpr ⟨hxM, by rw [hcM]; exact self_mem_reachFrom g xM⟩
      unfold nodeKeys at hxmem
      rw [hnil] at hxmem
      cases hxmem
    · intro y hy z hz
      rw [← hMdef] at hy hz ⊢
      obtain ⟨hyk, hyc⟩ := (mem_nodeKeys_induced g cM y).mp hy
      obtain ⟨hzk, hzc⟩ := (mem_nodeKeys_induced g cM z).mp hz
      have hry : Reach g xM y := by
        rw [hcM] at hyc
        exact reachFrom_sound g xM y hyc
      have hrz : Reach g xM z := by
        rw [hcM] at hzc
        exact reachFrom_sound g xM z hzc
      have hyz : Reach g y z := Relation.ReflTransGen.trans (reach_symm g xM y hry) hrz
      exact (reach_induced g cM hclosed y hyc z hyz).2
  · intro x hx c hc hcall
    obtain ⟨c0, hc0mem, hxc0⟩ := connected_components_cover g x hx
    obtain ⟨x0, hx0, hc0⟩ := connected_components_rep g c0 hc0mem
    have hcsub : ∀ y ∈ c, y ∈ c0 := by
      intro y hy
      obtain ⟨hyk, hxy⟩ := hcall y hy
      rw [hc0] at hxc0 ⊢
      have hx0x : Reach g x0 x := reachFrom_sound g x0 x hxc0
      exact reachFrom_complete g hwf x0 hx0 y (Relation.ReflTransGen.trans hx0x hxy)
    have hlen1 : c.length ≤ c0.length := nodup_subset_length c c0 hc hcsub
    have hc0nodup : c0.Nodup := by
      rw [hc0]
      exact reachFrom_nodup g x0 hwf.1
    have hc0sub : ∀ y ∈ c0, y ∈ nodeKeys g := by
      rw [hc0]
      exact reachFrom_subset_keys g x0 hx0
    have hlen2 : (inducedSubgraph g c0).nodes.length = c0.length :=
      length_induced_nodes g c0 hwf.1 hc0nodup hc0sub
    have hmem0 : inducedSubgraph g c0 ∈ connected_component_subgraphs g :=
      List.mem_map_of_mem _ hc0mem
    have hlen3 := hMmax _ hmem0
    omega

/-- C3 amended witness: the two-triangle graph is well formed and
disconnected, so fix_connectivity returns one maximal component
subgraph with all the stated properties. -/
theorem largestComponent_of_disconnected_w :
    ∃ H, fix_connectivity gTriangles = Except.ok (some H) ∧
      H ∈ connected_component_subgraphs gTriangles ∧
      SubgraphOf H gTriangles ∧
      ConnectedG H ∧
      ∀ x ∈ nodeKeys gTriangles, ∀ c : List String, c.Nodup →
        (∀ y ∈ c, y ∈ nodeKeys gTriangles ∧ Reach gTriangles x y) →
        c.length ≤ H.nodes.length :=
  largestComponent_of_disconnected gTriangles ⟨by decide, by decide⟩ rfl

end Gexify
